import Mathlib

/-
Verification of the rotor-stream `Stream` driver (src/stream.rs and
src/protocol.rs) against its natural-language specification.

The shallow embedding below translates the Rust source into Lean:

* machine state (buffers, socket, timers) is explicit state passing;
* the non-blocking socket is an oracle: a script of read results and
  write results, consumed one event per syscall, mirroring the four-way
  classification in `StreamImpl::read` / `StreamImpl::write`;
* the user protocol (`Protocol` trait) is a record of callback functions,
  each receiving the transport (input and output buffer) and returning a
  `Request` (an optional (handler, expectation, deadline) triple) together
  with the possibly mutated transport, mirroring `&mut Transport`;
* the action loop `StreamImpl::_action` is embedded with a fuel parameter
  (the Rust loop is not structurally terminating: the user protocol can
  keep returning immediately satisfiable expectations); theorems about
  emitted events hold for every fuel value;
* every run additionally produces a trace of events (syscalls performed
  and user callbacks invoked with their arguments) so that "callback X is
  invoked with property P" claims are statements about traces.

Time is modelled in whole milliseconds as `Int` (the source uses a steady
clock through `time::SteadyTime` / `Deadline`); the `as u64` cast in timer
registration is modelled as reduction modulo 2 ^ 64.
-/

set_option maxHeartbeats 1000000

namespace RotorStream

variable {M : Type}

/-- Expectation, from src/protocol.rs (enum Expectation). Delimiters are
byte strings; bytes are modelled as natural numbers. -/
inductive Expectation where
  | Bytes (n : Nat)
  | BufferEof (max : Nat)
  | Eof (min : Nat)
  | Delimiter (offset : Nat) (delim : List Nat) (max : Nat)
  | Flush (n : Nat)
  | Sleep
deriving DecidableEq

/-- Result classification of one read syscall, from src/stream.rs
(enum IoOp). -/
inductive IoOp where
  | Done
  | NoOp
  | Eof
  | Error
deriving DecidableEq

/-- IoOp::is_done from src/stream.rs: Done maps to Ok(true), NoOp and Eof
map to Ok(false), Error maps to Err(()). -/
def IoOp.is_done : IoOp → Except Unit Bool
  | .Done => .ok true
  | .NoOp => .ok false
  | .Eof => .ok false
  | .Error => .error ()

/-- One scripted result of `inbuf.read_from(&mut socket)`: `ok bytes` is
`Ok(bytes.length)` with those bytes appended to the input buffer (the empty
list is `Ok(0)`, i.e. peer half-close), `block` is a WouldBlock error and
`err` is any other io error. -/
inductive RdEv where
  | ok (bytes : List Nat)
  | block
  | err
deriving DecidableEq

/-- One scripted result of `outbuf.write_to(&mut socket)`: `ok n` is
`Ok(n)` (n bytes drained from the front of the output buffer), `block` is
WouldBlock, `err` is any other io error. -/
inductive WrEv where
  | ok (n : Nat)
  | block
  | err
deriving DecidableEq

/-- The socket plus the two buffers owned by StreamImpl (src/stream.rs):
the socket is its remaining scripted read and write results. -/
structure St where
  reads : List RdEv
  writes : List WrEv
  inbuf : List Nat
  outbuf : List Nat
deriving DecidableEq

/-- StreamImpl from src/stream.rs: socket and buffers plus the current
deadline and the opaque timer token registered with the host. -/
structure StreamImpl where
  st : St
  deadline : Int
  timeout : Nat
deriving DecidableEq

/-- The host scope (rotor's Scope) as far as the driver uses it: the
current steady time, whether the host rejects timer registrations or
socket registrations, a fresh-token counter, the registry of live timers
(token, absolute expiry) and the list of tokens passed to clear_timeout. -/
structure Scope where
  now : Int
  timerFail : Bool
  registerFail : Bool
  nextToken : Nat
  timers : List (Nat × Int)
  cancelled : List Nat
deriving DecidableEq

/-- scope.clear_timeout(token): removes the timer and records the token as
cancelled. -/
def Scope.clear_timeout (sc : Scope) (tok : Nat) : Scope :=
  { sc with timers := sc.timers.filter (fun p => p.1 != tok),
            cancelled := tok :: sc.cancelled }

/-- scope.timeout_ms(ms): registers a timer expiring `ms` milliseconds
from now and returns a fresh token, or fails if the host rejects the
registration. -/
def Scope.timeout_ms (sc : Scope) (ms : Nat) : Option (Nat × Scope) :=
  if sc.timerFail then none
  else some (sc.nextToken,
    { sc with nextToken := sc.nextToken + 1,
              timers := (sc.nextToken, sc.now + (ms : Int)) :: sc.timers })

/-- `(dline - SteadyTime::now()).num_milliseconds() as u64` from
src/stream.rs: the signed millisecond difference cast to u64
(two-complement wrap, i.e. reduction modulo 2 ^ 64). -/
def relMs (dl now : Int) : Nat := ((dl - now) % (2 ^ 64 : Int)).toNat

/-- Transport from src/lib.rs as used by callbacks: the two buffers the
user protocol may consume from and append to. -/
structure Transport where
  inbuf : List Nat
  outbuf : List Nat
deriving DecidableEq

/-- Request<M> = Option<(M, Expectation, Deadline)>. -/
abbrev Request (M : Type) := Option (M × Expectation × Int)

/-- The Protocol trait from src/protocol.rs: each callback receives the
transport and returns the next Request plus the mutated transport.
`delimiter_not_found` is included because the trait declares it (with a
default body returning None); whether the driver ever invokes it is one of
the verified claims. -/
structure Protocol (M : Type) where
  bytes_read : M → Transport → Nat → Request M × Transport
  bytes_flushed : M → Transport → Request M × Transport
  timeout : M → Transport → Request M × Transport
  wakeup : M → Transport → Request M × Transport
  delimiter_not_found : M → Transport → Request M × Transport

/-- Observable events of a run: syscalls performed and user callbacks
invoked. A `bytesRead` event records the expectation being satisfied, the
input buffer at callback entry and the count passed to the callback; a
`bytesFlushed` event records the output buffer at callback entry. -/
inductive Ev where
  | readOp (op : IoOp)
  | wrote (n : Nat)
  | writeBlock
  | bytesRead (exp : Expectation) (inbuf : List Nat) (count : Nat)
  | bytesFlushed (outbuf : List Nat)
  | delimNotFound
  | timeoutCb
deriving DecidableEq

/-- Whether a byte list starts with another byte list (needle second). -/
def starts_with : List Nat → List Nat → Bool
  | _, [] => true
  | [], _ :: _ => false
  | a :: hs, b :: ns => a == b && starts_with hs ns

/-- Modelled from the spec: `find_substr` lives in the repository's
`substr` module, which is not under src/. The spec describes the Delimiter
expectation as searching for a fixed byte sequence `needle` in the slice
and reporting the index of the needle's first byte, so `find_substr` is
first-occurrence substring search: the least index at which the needle
starts, or none. -/
def find_substr (hay needle : List Nat) : Option Nat :=
  match hay with
  | [] => if needle = [] then some 0 else none
  | _ :: t =>
    if starts_with hay needle then some 0
    else (find_substr t needle).map (· + 1)

/-- What an inner expectation loop of `_action` asks the outer loop to do
next: continue with a new request (`continue 'outer` after a callback),
park the stream (`return Ok(Stream::compose(..))`), or fail
(`return Err(())`). -/
inductive InnerRes (M : Type) where
  | cont (r : M × Expectation × Int)
  | park
  | fail
deriving DecidableEq

/-- Result of an inner expectation loop: the verdict plus the remaining
socket script, the two buffers, and the events emitted. -/
structure InnerOut (M : Type) where
  res : InnerRes M
  reads : List RdEv
  inbuf : List Nat
  outbuf : List Nat
  evs : List Ev
deriving DecidableEq

/-- The `Bytes(num)` inner loop of StreamImpl::_action (src/stream.rs):
if the input buffer holds at least `num` bytes invoke bytes_read with
count `num`; otherwise perform one read and continue on Done, park on
NoOp or Eof (IoOp::is_done maps both to Ok(false)), fail on Error. -/
def bytesLoop (P : Protocol M) (num : Nat) (m : M) :
    List RdEv → List Nat → List Nat → InnerOut M
  | reads, inbuf, outbuf =>
    if num ≤ inbuf.length then
      let pr := P.bytes_read m ⟨inbuf, outbuf⟩ num
      match pr.1 with
      | none => ⟨.fail, reads, pr.2.inbuf, pr.2.outbuf,
          [.bytesRead (.Bytes num) inbuf num]⟩
      | some r => ⟨.cont r, reads, pr.2.inbuf, pr.2.outbuf,
          [.bytesRead (.Bytes num) inbuf num]⟩
    else
      match reads with
      | [] => ⟨.park, [], inbuf, outbuf, [.readOp .NoOp]⟩
      | .ok [] :: rest => ⟨.park, rest, inbuf, outbuf, [.readOp .Eof]⟩
      | .ok (b :: bs) :: rest =>
        let o := bytesLoop P num m rest (inbuf ++ b :: bs) outbuf
        ⟨o.res, o.reads, o.inbuf, o.outbuf, .readOp .Done :: o.evs⟩
      | .block :: rest => ⟨.park, rest, inbuf, outbuf, [.readOp .NoOp]⟩
      | .err :: rest => ⟨.fail, rest, inbuf, outbuf, [.readOp .Error]⟩

/-- The `Delimiter(min, delim, max)` inner loop of StreamImpl::_action:
if the buffer is longer than the offset and find_substr locates the
delimiter in inbuf[min..], invoke bytes_read with the found index;
otherwise fail if the buffer exceeds `max`; otherwise read once as in the
Bytes loop. No callback is made on the failure path. -/
def delimLoop (P : Protocol M) (off : Nat) (d : List Nat) (mx : Nat)
    (m : M) : List RdEv → List Nat → List Nat → InnerOut M
  | reads, inbuf, outbuf =>
    if hf : (if off < inbuf.length
             then find_substr (inbuf.drop off) d else none).isSome then
      let num := (if off < inbuf.length
             then find_substr (inbuf.drop off) d else none).get hf
      let pr := P.bytes_read m ⟨inbuf, outbuf⟩ num
      match pr.1 with
      | none => ⟨.fail, reads, pr.2.inbuf, pr.2.outbuf,
          [.bytesRead (.Delimiter off d mx) inbuf num]⟩
      | some r => ⟨.cont r, reads, pr.2.inbuf, pr.2.outbuf,
          [.bytesRead (.Delimiter off d mx) inbuf num]⟩
    else
      if mx < inbuf.length then ⟨.fail, reads, inbuf, outbuf, []⟩
      else
        match reads with
        | [] => ⟨.park, [], inbuf, outbuf, [.readOp .NoOp]⟩
        | .ok [] :: rest => ⟨.park, rest, inbuf, outbuf, [.readOp .Eof]⟩
        | .ok (b :: bs) :: rest =>
          let o := delimLoop P off d mx m rest (inbuf ++ b :: bs) outbuf
          ⟨o.res, o.reads, o.inbuf, o.outbuf, .readOp .Done :: o.evs⟩
        | .block :: rest => ⟨.park, rest, inbuf, outbuf, [.readOp .NoOp]⟩
        | .err :: rest => ⟨.fail, rest, inbuf, outbuf, [.readOp .Error]⟩

/-- The `Eof(min)` inner loop of StreamImpl::_action: if the buffer is
longer than `min` invoke bytes_read with the whole buffer length; on a
half-close read also invoke bytes_read with the buffer length; continue on
Done, park on NoOp, fail on Error. -/
def eofLoop (P : Protocol M) (mn : Nat) (m : M) :
    List RdEv → List Nat → List Nat → InnerOut M
  | reads, inbuf, outbuf =>
    if mn < inbuf.length then
      let pr := P.bytes_read m ⟨inbuf, outbuf⟩ inbuf.length
      match pr.1 with
      | none => ⟨.fail, reads, pr.2.inbuf, pr.2.outbuf,
          [.bytesRead (.Eof mn) inbuf inbuf.length]⟩
      | some r => ⟨.cont r, reads, pr.2.inbuf, pr.2.outbuf,
          [.bytesRead (.Eof mn) inbuf inbuf.length]⟩
    else
      match reads with
      | [] => ⟨.park, [], inbuf, outbuf, [.readOp .NoOp]⟩
      | .ok [] :: rest =>
        let pr := P.bytes_read m ⟨inbuf, outbuf⟩ inbuf.length
        match pr.1 with
        | none => ⟨.fail, rest, pr.2.inbuf, pr.2.outbuf,
            [.readOp .Eof, .bytesRead (.Eof mn) inbuf inbuf.length]⟩
        | some r => ⟨.cont r, rest, pr.2.inbuf, pr.2.outbuf,
            [.readOp .Eof, .bytesRead (.Eof mn) inbuf inbuf.length]⟩
      | .ok (b :: bs) :: rest =>
        let o := eofLoop P mn m rest (inbuf ++ b :: bs) outbuf
        ⟨o.res, o.reads, o.inbuf, o.outbuf, .readOp .Done :: o.evs⟩
      | .block :: rest => ⟨.park, rest, inbuf, outbuf, [.readOp .NoOp]⟩
      | .err :: rest => ⟨.fail, rest, inbuf, outbuf, [.readOp .Error]⟩

/-- The `BufferEof(max)` inner loop of StreamImpl::_action: fail as soon
as the buffer exceeds `max` (checked before each read, no callback);
invoke bytes_read with the buffer length exactly on a half-close read;
continue on Done, park on NoOp, fail on Error. -/
def bufEofLoop (P : Protocol M) (mx : Nat) (m : M) :
    List RdEv → List Nat → List Nat → InnerOut M
  | reads, inbuf, outbuf =>
    if mx < inbuf.length then ⟨.fail, reads, inbuf, outbuf, []⟩
    else
      match reads with
      | [] => ⟨.park, [], inbuf, outbuf, [.readOp .NoOp]⟩
      | .ok [] :: rest =>
        let pr := P.bytes_read m ⟨inbuf, outbuf⟩ inbuf.length
        match pr.1 with
        | none => ⟨.fail, rest, pr.2.inbuf, pr.2.outbuf,
            [.readOp .Eof, .bytesRead (.BufferEof mx) inbuf inbuf.length]⟩
        | some r => ⟨.cont r, rest, pr.2.inbuf, pr.2.outbuf,
            [.readOp .Eof, .bytesRead (.BufferEof mx) inbuf inbuf.length]⟩
      | .ok (b :: bs) :: rest =>
        let o := bufEofLoop P mx m rest (inbuf ++ b :: bs) outbuf
        ⟨o.res, o.reads, o.inbuf, o.outbuf, .readOp .Done :: o.evs⟩
      | .block :: rest => ⟨.park, rest, inbuf, outbuf, [.readOp .NoOp]⟩
      | .err :: rest => ⟨.fail, rest, inbuf, outbuf, [.readOp .Error]⟩

/-- Result of StreamImpl::write (src/stream.rs): Ok(true) if the output
buffer drained completely, Ok(false) after WouldBlock with bytes left,
Err(()) on a zero-byte write or an io error; plus the remaining write
script, the remaining output buffer and the emitted events. -/
structure WriteOut where
  res : Except Unit Bool
  writes : List WrEv
  outbuf : List Nat
  evs : List Ev

/-- StreamImpl::write: greedily drain the output buffer until it is empty
or the socket would block; `Ok(0)` from the socket is a fatal error. An
exhausted write script behaves like WouldBlock. -/
def doWrite : List WrEv → List Nat → WriteOut
  | writes, outbuf =>
    if outbuf.length = 0 then ⟨.ok true, writes, outbuf, []⟩
    else
      match writes with
      | [] => ⟨.ok (outbuf.length == 0), [], outbuf, [.writeBlock]⟩
      | .ok 0 :: rest => ⟨.error (), rest, outbuf, []⟩
      | .ok (n + 1) :: rest =>
        let o := doWrite rest (outbuf.drop (n + 1))
        ⟨o.res, o.writes, o.outbuf, .wrote (n + 1) :: o.evs⟩
      | .block :: rest => ⟨.ok (outbuf.length == 0), rest, outbuf,
          [.writeBlock]⟩
      | .err :: rest => ⟨.error (), rest, outbuf, []⟩

/-- The parked Stream (src/stream.rs struct Stream): user protocol value,
current expectation, deadline, timer token, socket and buffers. -/
structure Stream (M : Type) where
  fsm : M
  expectation : Expectation
  deadline : Int
  timeout : Nat
  st : St
deriving DecidableEq

/-- Stream::compose from src/stream.rs: rebuild a parked Stream from the
StreamImpl and the request triple. If the new deadline differs from the
stored one, cancel the old timer and register a new one for the
millisecond difference; the source panics ("Can't replace timer") if that
registration fails, modelled as the `none` result. -/
def compose (implem : StreamImpl) (m : M) (exp : Expectation) (dl : Int)
    (sc : Scope) : Option (Stream M × Scope) :=
  if dl ≠ implem.deadline then
    let sc1 := sc.clear_timeout implem.timeout
    match sc1.timeout_ms (relMs dl sc1.now) with
    | none => none
    | some (tok, sc2) => some (⟨m, exp, dl, tok, implem.st⟩, sc2)
  else some (⟨m, exp, dl, implem.timeout, implem.st⟩, sc)

/-- Outcome of an action-loop run: parked back into the event loop,
Err(()) out of `_action`, destroyed (Response::done from `action`),
panicked in compose, or out of fuel (a model artifact: the source loop has
no intrinsic bound). -/
inductive ActOut (M : Type) where
  | parked (s : Stream M)
  | ioError
  | destroyed
  | panicked
  | noFuel
deriving DecidableEq

/-- The `Flush(num)` arm of StreamImpl::_action: no inner read loop; if
the output buffer is at or below the watermark invoke bytes_flushed,
otherwise park. Falling out of the arm re-enters the outer loop. -/
def flushStep (P : Protocol M) (n : Nat) (m : M)
    (reads : List RdEv) (inbuf outbuf : List Nat) : InnerOut M :=
  if outbuf.length ≤ n then
    let pr := P.bytes_flushed m ⟨inbuf, outbuf⟩
    match pr.1 with
    | none => ⟨.fail, reads, pr.2.inbuf, pr.2.outbuf, [.bytesFlushed outbuf]⟩
    | some r => ⟨.cont r, reads, pr.2.inbuf, pr.2.outbuf, [.bytesFlushed outbuf]⟩
  else ⟨.park, reads, inbuf, outbuf, []⟩

/-- Dispatch on the current expectation (`match req.1` in
StreamImpl::_action): run the expectation-specific arm. `Sleep` parks
immediately. -/
def innerStep (P : Protocol M) (r : M × Expectation × Int) (st : St) :
    InnerOut M :=
  match r.2.1 with
  | .Bytes n => bytesLoop P n r.1 st.reads st.inbuf st.outbuf
  | .Delimiter off d mx => delimLoop P off d mx r.1 st.reads st.inbuf st.outbuf
  | .Eof mn => eofLoop P mn r.1 st.reads st.inbuf st.outbuf
  | .BufferEof mx => bufEofLoop P mx r.1 st.reads st.inbuf st.outbuf
  | .Flush n => flushStep P n r.1 st.reads st.inbuf st.outbuf
  | .Sleep => ⟨.park, st.reads, st.inbuf, st.outbuf, []⟩

/-- The outer loop of StreamImpl::_action, fuel-bounded. At the top of
each iteration the output buffer is drained again if the previous write
did not block (`if can_write { can_write = try!(self.write()); }`); then
the current expectation arm runs. A `cont` verdict loops with the new
request returned by the callback, `park` rebuilds the Stream through
Stream::compose, `fail` propagates Err(()). -/
def outer (P : Protocol M) :
    Nat → Bool → (M × Expectation × Int) → StreamImpl → Scope →
    ActOut M × Scope × List Ev
  | 0, _, _, _, sc => (.noFuel, sc, [])
  | fuel + 1, canWrite, r, s, sc =>
    let w := if canWrite then doWrite s.st.writes s.st.outbuf
             else ⟨.ok canWrite, s.st.writes, s.st.outbuf, []⟩
    match w.res with
    | .error _ => (.ioError, sc, w.evs)
    | .ok cw =>
      let o := innerStep P r
        { s.st with writes := w.writes, outbuf := w.outbuf }
      let s2 : StreamImpl :=
        { s with st := ⟨o.reads, w.writes, o.inbuf, o.outbuf⟩ }
      match o.res with
      | .cont r2 =>
        let p := outer P fuel cw r2 s2 sc
        (p.1, p.2.1, w.evs ++ o.evs ++ p.2.2)
      | .park =>
        match compose s2 r.1 r.2.1 r.2.2 sc with
        | none => (.panicked, sc, w.evs ++ o.evs)
        | some (stream, sc2) => (.parked stream, sc2, w.evs ++ o.evs)
      | .fail => (.ioError, sc, w.evs ++ o.evs)

/-- StreamImpl::_action from src/stream.rs: an absent request is Err(());
otherwise the output buffer is drained once up front
(`let mut can_write = try!(self.write());`) and the outer loop is entered. -/
def _action (P : Protocol M) (fuel : Nat) (req : Request M)
    (s : StreamImpl) (sc : Scope) : ActOut M × Scope × List Ev :=
  match req with
  | none => (.ioError, sc, [])
  | some r =>
    let w := doWrite s.st.writes s.st.outbuf
    match w.res with
    | .error _ => (.ioError, sc, w.evs)
    | .ok cw =>
      let s1 : StreamImpl :=
        { s with st := { s.st with writes := w.writes, outbuf := w.outbuf } }
      let p := outer P fuel cw r s1 sc
      (p.1, p.2.1, w.evs ++ p.2.2)

/-- StreamImpl::action from src/stream.rs: remember the timer token held
at entry; on Err(()) from `_action` pass it to scope.clear_timeout and
report Response::done() (the Stream is destroyed). -/
def action (P : Protocol M) (fuel : Nat) (req : Request M)
    (s : StreamImpl) (sc : Scope) : ActOut M × Scope × List Ev :=
  let old_timeout := s.timeout
  let p := _action P fuel req s sc
  match p.1 with
  | .ioError => (.destroyed, p.2.1.clear_timeout old_timeout, p.2.2)
  | x => (x, p.2.1, p.2.2)

/-- Machine::timeout from src/stream.rs: if the current steady time has
reached the deadline, decompose, invoke the user's timeout callback and
enter the action loop; otherwise the wakeup is spurious and the Stream is
returned unchanged (no user callback). -/
def timeoutOp (P : Protocol M) (fuel : Nat) (s : Stream M) (sc : Scope) :
    ActOut M × Scope × List Ev :=
  if sc.now ≥ s.deadline then
    let pr := P.timeout s.fsm ⟨s.st.inbuf, s.st.outbuf⟩
    let p := action P fuel pr.1
      ⟨{ s.st with inbuf := pr.2.inbuf, outbuf := pr.2.outbuf },
        s.deadline, s.timeout⟩ sc
    (p.1, p.2.1, .timeoutCb :: p.2.2)
  else (.parked s, sc, [])

/-- Machine::ready from src/stream.rs: decompose and run the action loop
with the stored (handler, expectation, deadline); the event set is not
inspected. -/
def readyOp (P : Protocol M) (fuel : Nat) (s : Stream M) (sc : Scope) :
    ActOut M × Scope × List Ev :=
  action P fuel (some (s.fsm, s.expectation, s.deadline))
    ⟨s.st, s.deadline, s.timeout⟩ sc

/-- Outcome of Stream::new: a constructed Stream, the ProtocolStop error,
a socket registration error, or the panic the source raises via
`.expect("Can't insert timer")` when the host rejects the deadline. -/
inductive NewOut (M : Type) where
  | ok (s : Stream M)
  | errProtocolStop
  | errRegister
  | panicTimer
deriving DecidableEq

/-- Stream::new from src/stream.rs: register the socket (readable and
writable, edge-triggered) once; if the protocol's create returns None fail
with ProtocolStop; otherwise register the initial timer — the source
panics (does not return the declared TimerError) if that registration
fails. The protocol's create result is passed in already applied to the
seed and socket. -/
def Stream.new (create : Request M) (reads : List RdEv) (writes : List WrEv)
    (sc : Scope) : NewOut M × Scope :=
  if sc.registerFail then (.errRegister, sc)
  else
    match create with
    | none => (.errProtocolStop, sc)
    | some (m, exp, dl) =>
      match sc.timeout_ms (relMs dl sc.now) with
      | none => (.panicTimer, sc)
      | some (tok, sc2) =>
        (.ok ⟨m, exp, dl, tok, ⟨reads, writes, [], []⟩⟩, sc2)

/-- A protocol value whose callbacks all stop the connection (return None)
and leave the transport untouched; used to instantiate runs concretely. -/
def stopProto : Protocol Unit where
  bytes_read := fun _ t _ => (none, t)
  bytes_flushed := fun _ t => (none, t)
  timeout := fun _ t => (none, t)
  wakeup := fun _ t => (none, t)
  delimiter_not_found := fun _ t => (none, t)

/-- A scope at steady time 0 with no timers and a cooperative host. -/
def sc0 : Scope := ⟨0, false, false, 0, [], []⟩

/-- starts_with checks list-prefix: it holds exactly when taking the
needle's length from the haystack yields the needle. -/
theorem starts_with_iff (p : List Nat) :
    ∀ l : List Nat, starts_with l p = true ↔ l.take p.length = p := by
  induction p with
  | nil => intro l; simp [starts_with]
  | cons b ns ih =>
    intro l
    cases l with
    | nil => simp [starts_with]
    | cons a hs =>
      simp [starts_with, ih, List.cons.injEq, Bool.and_eq_true, beq_iff_eq]

/-- find_substr really hits: at the reported index the haystack continues
with the needle. -/
theorem find_substr_hit (needle : List Nat) :
    ∀ (hay : List Nat) (i : Nat), find_substr hay needle = some i →
      (hay.drop i).take needle.length = needle := by
  intro hay
  induction hay with
  | nil =>
    intro i h
    simp only [find_substr] at h
    split at h
    · cases h; simp [*]
    · cases h
  | cons a t ih =>
    intro i h
    simp only [find_substr] at h
    split at h
    · cases h
      simpa using (starts_with_iff needle (a :: t)).mp (by assumption)
    · rcases Option.map_eq_some'.mp h with ⟨j, hj, rfl⟩
      simpa using ih j hj

/-- find_substr reports the first occurrence: at every smaller index the
haystack does not continue with the needle. -/
theorem find_substr_min (needle : List Nat) :
    ∀ (hay : List Nat) (i : Nat), find_substr hay needle = some i →
      ∀ j, j < i → (hay.drop j).take needle.length ≠ needle := by
  intro hay
  induction hay with
  | nil =>
    intro i h j hj
    simp only [find_substr] at h
    split at h
    · cases h; omega
    · cases h
  | cons a t ih =>
    intro i h j hj
    simp only [find_substr] at h
    split at h
    · cases h; omega
    · rcases Option.map_eq_some'.mp h with ⟨k, hk, rfl⟩
      cases j with
      | zero =>
        intro hcon
        have := (starts_with_iff needle (a :: t)).mpr hcon
        simp_all
      | succ j2 =>
        have hj2 : j2 < k := by omega
        simpa using ih k hk j2 hj2

/-- Soundness predicate on a single emitted event: each user callback was
invoked under the condition its expectation variant demands, the driver
never emits a bytes_read for Flush or Sleep, and the delimiter_not_found
hook is never invoked by this driver. -/
def EvGood : Ev → Prop
  | .readOp _ => True
  | .wrote _ => True
  | .writeBlock => True
  | .bytesFlushed _ => True
  | .timeoutCb => True
  | .delimNotFound => False
  | .bytesRead (.Bytes n) buf c => c = n ∧ n ≤ buf.length
  | .bytesRead (.BufferEof mx) buf c => c = buf.length ∧ buf.length ≤ mx
  | .bytesRead (.Eof _) buf c => c = buf.length
  | .bytesRead (.Delimiter o d _) buf c =>
      o < buf.length ∧ find_substr (buf.drop o) d = some c
  | .bytesRead (.Flush _) _ _ => False
  | .bytesRead .Sleep _ _ => False

/-- All events of a trace are sound. -/
def EvsGood (l : List Ev) : Prop := ∀ e ∈ l, EvGood e

theorem evsGood_nil : EvsGood [] := by intro e he; cases he

theorem evsGood_append {a b : List Ev} (ha : EvsGood a) (hb : EvsGood b) :
    EvsGood (a ++ b) := by
  intro e he
  rcases List.mem_append.mp he with h | h
  · exact ha e h
  · exact hb e h

theorem evsGood_cons {e : Ev} {l : List Ev} (he : EvGood e)
    (hl : EvsGood l) : EvsGood (e :: l) := by
  intro x hx
  rcases List.mem_cons.mp hx with h | h
  · exact h ▸ he
  · exact hl x h

/-- Write syscalls only produce write events, which are always sound. -/
theorem doWrite_evs_good : ∀ (ws : List WrEv) (ob : List Nat),
    EvsGood (doWrite ws ob).evs := by
  intro ws
  induction ws with
  | nil =>
    intro ob
    rw [doWrite.eq_def]
    by_cases h : ob.length = 0 <;> simp [h, EvsGood, EvGood]
  | cons wv rest ih =>
    intro ob
    rw [doWrite.eq_def]
    by_cases h : ob.length = 0
    · simp only [if_pos h]; exact evsGood_nil
    · cases wv with
      | ok n =>
        cases n with
        | zero => simp [h, EvsGood]
        | succ n2 =>
          simp only [if_neg h]
          exact evsGood_cons trivial (ih _)
      | block => simp [h, EvsGood, EvGood]
      | err => simp [h, EvsGood]

/-- If StreamImpl::write reports Ok(true) the output buffer fully
drained. -/
theorem doWrite_true_empty : ∀ (ws : List WrEv) (ob : List Nat),
    (doWrite ws ob).res = .ok true → (doWrite ws ob).outbuf = [] := by
  intro ws
  induction ws with
  | nil =>
    intro ob h
    rw [doWrite.eq_def] at h ⊢
    by_cases hl : ob.length = 0
    · simp only [if_pos hl]
      exact List.length_eq_zero.mp hl
    · simp only [if_neg hl] at h
      simp only [Except.ok.injEq] at h
      exact absurd (List.length_eq_zero.mp (by simpa using h)) (by simp_all)
  | cons wv rest ih =>
    intro ob h
    rw [doWrite.eq_def] at h ⊢
    by_cases hl : ob.length = 0
    · simp only [if_pos hl]
      exact List.length_eq_zero.mp hl
    · cases wv with
      | ok n =>
        cases n with
        | zero => simp only [if_neg hl] at h; cases h
        | succ n2 =>
          simp only [if_neg hl] at h ⊢
          exact ih _ h
      | block =>
        simp only [if_neg hl] at h
        simp only [Except.ok.injEq] at h
        exact absurd (List.length_eq_zero.mp (by simpa using h)) (by simp_all)
      | err => simp only [if_neg hl] at h; cases h

/-- Every event the Bytes arm emits is sound: its callback fires with
count `num` only once the buffer holds at least `num` bytes. -/
theorem bytesLoop_evs_good (P : Protocol M) (num : Nat) (m : M) :
    ∀ (reads : List RdEv) (inbuf outbuf : List Nat),
      EvsGood (bytesLoop P num m reads inbuf outbuf).evs := by
  intro reads
  induction reads with
  | nil =>
    intro inbuf outbuf
    rw [bytesLoop.eq_def]
    by_cases hn : num ≤ inbuf.length
    · simp only [if_pos hn]
      cases hpr : (P.bytes_read m ⟨inbuf, outbuf⟩ num).1 <;>
        simp [hpr, EvsGood, EvGood, hn]
    · simp [if_neg hn, EvsGood, EvGood]
  | cons ev rest ih =>
    intro inbuf outbuf
    rw [bytesLoop.eq_def]
    by_cases hn : num ≤ inbuf.length
    · simp only [if_pos hn]
      cases hpr : (P.bytes_read m ⟨inbuf, outbuf⟩ num).1 <;>
        simp [hpr, EvsGood, EvGood, hn]
    · simp only [if_neg hn]
      cases ev with
      | ok bs =>
        cases bs with
        | nil => simp [EvsGood, EvGood]
        | cons b bs2 => exact evsGood_cons trivial (ih _ _)
      | block => simp [EvsGood, EvGood]
      | err => simp [EvsGood, EvGood]

/-- Every event the Delimiter arm emits is sound: its callback fires only
when the buffer is longer than the offset and find_substr actually finds
the delimiter in the slice, and the count is the find_substr result. -/
theorem delimLoop_evs_good (P : Protocol M) (off : Nat) (d : List Nat)
    (mx : Nat) (m : M) :
    ∀ (reads : List RdEv) (inbuf outbuf : List Nat),
      EvsGood (delimLoop P off d mx m reads inbuf outbuf).evs := by
  intro reads
  induction reads with
  | nil =>
    intro inbuf outbuf
    rw [delimLoop.eq_def]
    by_cases hoff : off < inbuf.length
    · simp only [hoff, if_true]
      cases hfs : find_substr (inbuf.drop off) d with
      | some num =>
        simp only [hfs, Option.isSome_some, Option.get_some, dif_pos]
        cases hpr : (P.bytes_read m ⟨inbuf, outbuf⟩ num).1 <;>
          simp [hpr, EvsGood, EvGood, hoff, hfs]
      | none =>
        simp only [hfs, Option.isSome_none]
        by_cases hmx : mx < inbuf.length <;> simp [hmx, EvsGood, EvGood]
    · simp only [hoff, if_false]
      by_cases hmx : mx < inbuf.length <;> simp [hmx, EvsGood, EvGood]
  | cons ev rest ih =>
    intro inbuf outbuf
    rw [delimLoop.eq_def]
    by_cases hoff : off < inbuf.length
    · simp only [hoff, if_true]
      cases hfs : find_substr (inbuf.drop off) d with
      | some num =>
        simp only [hfs, Option.isSome_some, Option.get_some, dif_pos]
        cases hpr : (P.bytes_read m ⟨inbuf, outbuf⟩ num).1 <;>
          simp [hpr, EvsGood, EvGood, hoff, hfs]
      | none =>
        simp only [hfs, Option.isSome_none]
        by_cases hmx : mx < inbuf.length
        · simp [hmx, EvsGood, EvGood]
        · simp only [if_neg hmx, Bool.false_eq_true, dite_false]
          cases ev with
          | ok bs =>
            cases bs with
            | nil => simp [EvsGood, EvGood]
            | cons b bs2 => exact evsGood_cons trivial (ih _ _)
          | block => simp [EvsGood, EvGood]
          | err => simp [EvsGood, EvGood]
    · simp only [hoff, if_false]
      by_cases hmx : mx < inbuf.length
      · simp [hmx, EvsGood, EvGood]
      · simp only [if_neg hmx, Option.isSome_none, Bool.false_eq_true,
          dite_false]
        cases ev with
        | ok bs =>
          cases bs with
          | nil => simp [EvsGood, EvGood]
          | cons b bs2 => exact evsGood_cons trivial (ih _ _)
        | block => simp [EvsGood, EvGood]
        | err => simp [EvsGood, EvGood]

/-- Every event the Eof arm emits is sound: its callback always reports
the full buffer length. -/
theorem eofLoop_evs_good (P : Protocol M) (mn : Nat) (m : M) :
    ∀ (reads : List RdEv) (inbuf outbuf : List Nat),
      EvsGood (eofLoop P mn m reads inbuf outbuf).evs := by
  intro reads
  induction reads with
  | nil =>
    intro inbuf outbuf
    rw [eofLoop.eq_def]
    by_cases hn : mn < inbuf.length
    · simp only [if_pos hn]
      cases hpr : (P.bytes_read m ⟨inbuf, outbuf⟩ inbuf.length).1 <;>
        simp [hpr, EvsGood, EvGood]
    · simp [if_neg hn, EvsGood, EvGood]
  | cons ev rest ih =>
    intro inbuf outbuf
    rw [eofLoop.eq_def]
    by_cases hn : mn < inbuf.length
    · simp only [if_pos hn]
      cases hpr : (P.bytes_read m ⟨inbuf, outbuf⟩ inbuf.length).1 <;>
        simp [hpr, EvsGood, EvGood]
    · simp only [if_neg hn]
      cases ev with
      | ok bs =>
        cases bs with
        | nil =>
          cases hpr : (P.bytes_read m ⟨inbuf, outbuf⟩ inbuf.length).1 <;>
            simp [hpr, EvsGood, EvGood]
        | cons b bs2 => exact evsGood_cons trivial (ih _ _)
      | block => simp [EvsGood, EvGood]
      | err => simp [EvsGood, EvGood]

/-- Every event the BufferEof arm emits is sound: its callback reports the
full buffer length and fires only while the buffer is within `max`. -/
theorem bufEofLoop_evs_good (P : Protocol M) (mx : Nat) (m : M) :
    ∀ (reads : List RdEv) (inbuf outbuf : List Nat),
      EvsGood (bufEofLoop P mx m reads inbuf outbuf).evs := by
  intro reads
  induction reads with
  | nil =>
    intro inbuf outbuf
    rw [bufEofLoop.eq_def]
    by_cases hmx : mx < inbuf.length
    · simp [hmx, EvsGood, EvGood]
    · simp [hmx, EvsGood, EvGood]
  | cons ev rest ih =>
    intro inbuf outbuf
    rw [bufEofLoop.eq_def]
    by_cases hmx : mx < inbuf.length
    · simp [hmx, EvsGood, EvGood]
    · simp only [if_neg hmx]
      cases ev with
      | ok bs =>
        cases bs with
        | nil =>
          cases hpr : (P.bytes_read m ⟨inbuf, outbuf⟩ inbuf.length).1 <;>
            simp [hpr, EvsGood, EvGood, Nat.le_of_not_lt hmx]
        | cons b bs2 => exact evsGood_cons trivial (ih _ _)
      | block => simp [EvsGood, EvGood]
      | err => simp [EvsGood, EvGood]

/-- Every event the Flush arm emits is sound. -/
theorem flushStep_evs_good (P : Protocol M) (n : Nat) (m : M)
    (reads : List RdEv) (inbuf outbuf : List Nat) :
    EvsGood (flushStep P n m reads inbuf outbuf).evs := by
  rw [flushStep.eq_def]
  by_cases hn : outbuf.length ≤ n
  · simp only [if_pos hn]
    cases hpr : (P.bytes_flushed m ⟨inbuf, outbuf⟩).1 <;>
      simp [hpr, EvsGood, EvGood]
  · simp [hn, EvsGood]

/-- Every event any expectation arm emits is sound. -/
theorem innerStep_evs_good (P : Protocol M) (r : M × Expectation × Int)
    (st : St) : EvsGood (innerStep P r st).evs := by
  rw [innerStep.eq_def]
  cases r.2.1 with
  | Bytes n => exact bytesLoop_evs_good P n r.1 _ _ _
  | BufferEof mx => exact bufEofLoop_evs_good P mx r.1 _ _ _
  | Eof mn => exact eofLoop_evs_good P mn r.1 _ _ _
  | Delimiter off d mx => exact delimLoop_evs_good P off d mx r.1 _ _ _
  | Flush n => exact flushStep_evs_good P n r.1 _ _ _
  | Sleep => exact evsGood_nil

/-- Every event an outer action-loop run emits is sound, for every fuel
bound. -/
theorem outer_evs_good (P : Protocol M) :
    ∀ (fuel : Nat) (canWrite : Bool) (r : M × Expectation × Int)
      (s : StreamImpl) (sc : Scope),
      EvsGood (outer P fuel canWrite r s sc).2.2 := by
  intro fuel
  induction fuel with
  | zero => intro canWrite r s sc; exact evsGood_nil
  | succ fuel ih =>
    intro canWrite r s sc
    simp only [outer]
    repeat' split
    all_goals try dsimp only
    all_goals intro e he
    all_goals try simp only [List.mem_append] at he
    all_goals first
    | exact absurd he (List.not_mem_nil e)
    | exact doWrite_evs_good _ _ e he
    | exact innerStep_evs_good _ _ _ e he
    | exact ih _ _ _ _ e he
    | (rcases he with he | he <;>
        first
        | exact absurd he (List.not_mem_nil e)
        | exact doWrite_evs_good _ _ e he
        | exact innerStep_evs_good _ _ _ e he
        | exact ih _ _ _ _ e he
        | (rcases he with he | he <;>
            first
            | exact absurd he (List.not_mem_nil e)
            | exact doWrite_evs_good _ _ e he
            | exact innerStep_evs_good _ _ _ e he
            | exact ih _ _ _ _ e he))

/-- Every event a `_action` run emits is sound. -/
theorem _action_evs_good (P : Protocol M) (fuel : Nat) (req : Request M)
    (s : StreamImpl) (sc : Scope) :
    EvsGood ((_action P fuel req s sc).2.2) := by
  cases req with
  | none => exact evsGood_nil
  | some r =>
    simp only [_action]
    split
    · exact doWrite_evs_good _ _
    · intro e he
      rcases List.mem_append.mp he with h | h
      · exact doWrite_evs_good _ _ e h
      · exact outer_evs_good P _ _ _ _ _ e h

/-- Every event a full action run (including teardown handling) emits is
sound. -/
theorem action_evs_good (P : Protocol M) (fuel : Nat) (req : Request M)
    (s : StreamImpl) (sc : Scope) :
    EvsGood ((action P fuel req s sc).2.2) := by
  simp only [action]
  split <;> exact _action_evs_good P fuel req s sc

/-- C4: whenever the bytes_read callback is invoked while the current
expectation is Delimiter(o, d, m), the input buffer at callback entry is
longer than o, the needle d occurs in the buffer at absolute index o + c
where c is the reported count (so the count is the index of the needle's
first byte minus o), and c is the first such occurrence in inbuf[o..]. -/
theorem c4_delimiter_callback_sound (P : Protocol M) (fuel : Nat)
    (req : Request M) (s : StreamImpl) (sc : Scope)
    (o : Nat) (d : List Nat) (mx : Nat) (buf : List Nat) (c : Nat)
    (hmem : Ev.bytesRead (.Delimiter o d mx) buf c
      ∈ (action P fuel req s sc).2.2) :
    o < buf.length ∧
    (buf.drop (o + c)).take d.length = d ∧
    (∀ j, j < c → (buf.drop (o + j)).take d.length ≠ d) := by
  have hg := action_evs_good P fuel req s sc _ hmem
  obtain ⟨h1, h2⟩ := hg
  refine ⟨h1, ?_, ?_⟩
  · have h3 := find_substr_hit d (buf.drop o) c h2
    rwa [List.drop_drop] at h3
  · intro j hj hcon
    have hmin := find_substr_min d (buf.drop o) c h2 j hj
    rw [List.drop_drop] at hmin
    exact hmin hcon

/-- Witness for C4: a concrete run (buffer 65 99, needle 99) in which the
Delimiter callback fires with count 1. -/
theorem c4_delimiter_callback_sound_witness :
    0 < ([65, 99] : List Nat).length ∧
    (([65, 99] : List Nat).drop (0 + 1)).take ([99] : List Nat).length
      = [99] ∧
    (∀ j, j < 1 →
      (([65, 99] : List Nat).drop (0 + j)).take ([99] : List Nat).length
        ≠ [99]) :=
  c4_delimiter_callback_sound stopProto 2
    (some ((), .Delimiter 0 [99] 10, 0)) ⟨⟨[], [], [65, 99], []⟩, 0, 0⟩
    sc0 0 [99] 10 [65, 99] 1 (by decide)

/-- Writing an empty output buffer is a no-op reporting full drain. -/
theorem doWrite_nil (ws : List WrEv) :
    doWrite ws [] = ⟨.ok true, ws, [], []⟩ := by
  rw [doWrite.eq_def]; simp

/-- The teardown wrapper does not change the run trace. -/
theorem action_trace (P : Protocol M) (fuel : Nat) (req : Request M)
    (s : StreamImpl) (sc : Scope) :
    (action P fuel req s sc).2.2 = (_action P fuel req s sc).2.2 := by
  simp only [action]; split <;> rfl

/-- C6: (1) whenever the bytes_read callback is invoked while the current
expectation is Bytes(n), the reported count equals n and the buffer at
callback entry holds at least n bytes (it may hold more); (2) when a run
starts with expectation Bytes(n), an empty output buffer and an input
buffer already holding at least n bytes, the very first event of the run
is that callback — no read (and no other) syscall precedes it; with n = 0
this is the immediate satisfaction of Bytes(0). -/
theorem c6_bytes_semantics :
    (∀ (P : Protocol M) (fuel : Nat) (req : Request M) (s : StreamImpl)
       (sc : Scope) (n : Nat) (buf : List Nat) (c : Nat),
       Ev.bytesRead (.Bytes n) buf c ∈ (action P fuel req s sc).2.2 →
       c = n ∧ n ≤ buf.length) ∧
    (∀ (P : Protocol M) (fuel : Nat) (m : M) (n : Nat) (dl : Int)
       (s : StreamImpl) (sc : Scope),
       s.st.outbuf = [] → n ≤ s.st.inbuf.length →
       ∃ rest, (action P (fuel + 1) (some (m, .Bytes n, dl)) s sc).2.2
         = .bytesRead (.Bytes n) s.st.inbuf n :: rest) ∧
    (∀ (P : Protocol M) (n : Nat) (m : M) (reads : List RdEv)
       (inbuf outbuf : List Nat), n ≤ inbuf.length →
       (bytesLoop P n m reads inbuf outbuf).evs
         = [.bytesRead (.Bytes n) inbuf n] ∧
       (bytesLoop P n m reads inbuf outbuf).reads = reads) := by
  refine ⟨?_, ?_, ?_⟩
  · intro P fuel req s sc n buf c hmem
    exact action_evs_good P fuel req s sc _ hmem
  · intro P fuel m n dl s sc hob hn
    rw [action_trace]
    simp only [_action, hob, doWrite_nil]
    simp only [outer, if_true]
    simp only [doWrite_nil]
    simp only [innerStep]
    rw [bytesLoop.eq_def]
    simp only [if_pos hn]
    cases hpr : (P.bytes_read m ⟨s.st.inbuf, []⟩ n).1 <;>
      simp [hpr]
  · intro P n m reads inbuf outbuf hn
    rw [bytesLoop.eq_def]
    simp only [if_pos hn]
    cases hpr : (P.bytes_read m ⟨inbuf, outbuf⟩ n).1 <;> simp [hpr]

/-- Witness for C6: part 1 at a concrete run delivering count 1 with a
one-byte buffer; part 2 at a concrete Bytes(0) run whose first event is
the callback with count 0 and no preceding syscall. -/
theorem c6_bytes_semantics_witness :
    (1 = 1 ∧ 1 ≤ ([5] : List Nat).length) ∧
    (∃ rest,
      (action stopProto 1 (some ((), .Bytes 0, 0))
        ⟨⟨[], [], [], []⟩, 0, 0⟩ sc0).2.2
        = .bytesRead (.Bytes 0) [] 0 :: rest) ∧
    ((bytesLoop stopProto 2 () [.block] [8, 9, 10] []).evs
        = [.bytesRead (.Bytes 2) [8, 9, 10] 2] ∧
     (bytesLoop stopProto 2 () [.block] [8, 9, 10] []).reads = [.block]) := by
  refine ⟨?_, ?_, ?_⟩
  · exact c6_bytes_semantics.1 stopProto 1 (some ((), .Bytes 1, 0))
      ⟨⟨[], [], [5], []⟩, 0, 0⟩ sc0 1 [5] 1 (by decide)
  · exact c6_bytes_semantics.2.1 stopProto 0 () 0 0
      ⟨⟨[], [], [], []⟩, 0, 0⟩ sc0 rfl (by decide)
  · exact c6_bytes_semantics.2.2 stopProto 2 () [.block] [8, 9, 10] []
      (by decide)

/-- Write syscalls never emit a BufferEof bytes_read event. -/
theorem doWrite_noBuf : ∀ (ws : List WrEv) (ob : List Nat)
    (mx : Nat) (buf : List Nat) (c : Nat),
    Ev.bytesRead (.BufferEof mx) buf c ∉ (doWrite ws ob).evs := by
  intro ws
  induction ws with
  | nil =>
    intro ob mx buf c
    rw [doWrite.eq_def]
    by_cases h : ob.length = 0 <;> simp [h]
  | cons wv rest ih =>
    intro ob mx buf c
    rw [doWrite.eq_def]
    by_cases h : ob.length = 0
    · simp [h]
    · cases wv with
      | ok n =>
        cases n with
        | zero => simp [h]
        | succ n2 =>
          simp only [if_neg h]
          intro hmem
          rcases List.mem_cons.mp hmem with h2 | h2
          · cases h2
          · exact ih _ mx buf c h2
      | block => simp [h]
      | err => simp [h]

/-- The Bytes arm never emits a BufferEof callback event. -/
theorem bytesLoop_noBufEv (P : Protocol M) (num : Nat) (m : M) :
    ∀ (reads : List RdEv) (inbuf outbuf : List Nat)
      (mx : Nat) (buf : List Nat) (c : Nat),
    Ev.bytesRead (.BufferEof mx) buf c
      ∉ (bytesLoop P num m reads inbuf outbuf).evs := by
  intro reads
  induction reads with
  | nil =>
    intro inbuf outbuf mx buf c
    rw [bytesLoop.eq_def]
    by_cases hn : num ≤ inbuf.length
    · simp only [if_pos hn]
      cases hpr : (P.bytes_read m ⟨inbuf, outbuf⟩ num).1 <;> simp [hpr]
    · simp [if_neg hn]
  | cons ev rest ih =>
    intro inbuf outbuf mx buf c
    rw [bytesLoop.eq_def]
    by_cases hn : num ≤ inbuf.length
    · simp only [if_pos hn]
      cases hpr : (P.bytes_read m ⟨inbuf, outbuf⟩ num).1 <;> simp [hpr]
    · simp only [if_neg hn]
      cases ev with
      | ok bs =>
        cases bs with
        | nil => simp
        | cons b bs2 =>
          intro hmem
          rcases List.mem_cons.mp hmem with h2 | h2
          · cases h2
          · exact ih _ _ mx buf c h2
      | block => simp
      | err => simp

/-- The Delimiter arm never emits a BufferEof callback event. -/
theorem delimLoop_noBufEv (P : Protocol M) (off : Nat) (d : List Nat)
    (mx0 : Nat) (m : M) :
    ∀ (reads : List RdEv) (inbuf outbuf : List Nat)
      (mx : Nat) (buf : List Nat) (c : Nat),
    Ev.bytesRead (.BufferEof mx) buf c
      ∉ (delimLoop P off d mx0 m reads inbuf outbuf).evs := by
  intro reads
  induction reads with
  | nil =>
    intro inbuf outbuf mx buf c
    rw [delimLoop.eq_def]
    by_cases hoff : off < inbuf.length
    · simp only [hoff, if_true]
      cases hfs : find_substr (inbuf.drop off) d with
      | some num =>
        simp only [hfs, Option.isSome_some, Option.get_some, dif_pos]
        cases hpr : (P.bytes_read m ⟨inbuf, outbuf⟩ num).1 <;> simp [hpr]
      | none =>
        simp only [hfs, Option.isSome_none]
        by_cases hmx : mx0 < inbuf.length <;> simp [hmx]
    · simp only [hoff, if_false]
      by_cases hmx : mx0 < inbuf.length <;> simp [hmx]
  | cons ev rest ih =>
    intro inbuf outbuf mx buf c
    rw [delimLoop.eq_def]
    by_cases hoff : off < inbuf.length
    · simp only [hoff, if_true]
      cases hfs : find_substr (inbuf.drop off) d with
      | some num =>
        simp only [hfs, Option.isSome_some, Option.get_some, dif_pos]
        cases hpr : (P.bytes_read m ⟨inbuf, outbuf⟩ num).1 <;> simp [hpr]
      | none =>
        simp only [hfs, Option.isSome_none]
        by_cases hmx : mx0 < inbuf.length
        · simp [hmx]
        · simp only [if_neg hmx, Bool.false_eq_true, dite_false]
          cases ev with
          | ok bs =>
            cases bs with
            | nil => simp
            | cons b bs2 =>
              intro hmem
              rcases List.mem_cons.mp hmem with h2 | h2
              · cases h2
              · exact ih _ _ mx buf c h2
          | block => simp
          | err => simp
    · simp only [hoff, if_false]
      by_cases hmx : mx0 < inbuf.length
      · simp [hmx]
      · simp only [if_neg hmx, Option.isSome_none, Bool.false_eq_true,
          dite_false]
        cases ev with
        | ok bs =>
          cases bs with
          | nil => simp
          | cons b bs2 =>
            intro hmem
            rcases List.mem_cons.mp hmem with h2 | h2
            · cases h2
            · exact ih _ _ mx buf c h2
        | block => simp
        | err => simp

/-- The Eof arm never emits a BufferEof callback event. -/
theorem eofLoop_noBufEv (P : Protocol M) (mn : Nat) (m : M) :
    ∀ (reads : List RdEv) (inbuf outbuf : List Nat)
      (mx : Nat) (buf : List Nat) (c : Nat),
    Ev.bytesRead (.BufferEof mx) buf c
      ∉ (eofLoop P mn m reads inbuf outbuf).evs := by
  intro reads
  induction reads with
  | nil =>
    intro inbuf outbuf mx buf c
    rw [eofLoop.eq_def]
    by_cases hn : mn < inbuf.length
    · simp only [if_pos hn]
      cases hpr : (P.bytes_read m ⟨inbuf, outbuf⟩ inbuf.length).1 <;>
        simp [hpr]
    · simp [if_neg hn]
  | cons ev rest ih =>
    intro inbuf outbuf mx buf c
    rw [eofLoop.eq_def]
    by_cases hn : mn < inbuf.length
    · simp only [if_pos hn]
      cases hpr : (P.bytes_read m ⟨inbuf, outbuf⟩ inbuf.length).1 <;>
        simp [hpr]
    · simp only [if_neg hn]
      cases ev with
      | ok bs =>
        cases bs with
        | nil =>
          cases hpr : (P.bytes_read m ⟨inbuf, outbuf⟩ inbuf.length).1 <;>
            simp [hpr]
        | cons b bs2 =>
          intro hmem
          rcases List.mem_cons.mp hmem with h2 | h2
          · cases h2
          · exact ih _ _ mx buf c h2
      | block => simp
      | err => simp

/-- The Flush arm never emits a BufferEof callback event. -/
theorem flushStep_noBufEv (P : Protocol M) (n : Nat) (m : M)
    (reads : List RdEv) (inbuf outbuf : List Nat)
    (mx : Nat) (buf : List Nat) (c : Nat) :
    Ev.bytesRead (.BufferEof mx) buf c
      ∉ (flushStep P n m reads inbuf outbuf).evs := by
  rw [flushStep.eq_def]
  by_cases hn : outbuf.length ≤ n
  · simp only [if_pos hn]
    cases hpr : (P.bytes_flushed m ⟨inbuf, outbuf⟩).1 <;> simp [hpr]
  · simp [hn]

/-- If the BufferEof arm emits its callback event, it observed a
half-close in the read script. -/
theorem bufEofLoop_bufEv (P : Protocol M) (mx0 : Nat) (m : M) :
    ∀ (reads : List RdEv) (inbuf outbuf : List Nat)
      (mx : Nat) (buf : List Nat) (c : Nat),
    Ev.bytesRead (.BufferEof mx) buf c
      ∈ (bufEofLoop P mx0 m reads inbuf outbuf).evs →
    RdEv.ok [] ∈ reads := by
  intro reads
  induction reads with
  | nil =>
    intro inbuf outbuf mx buf c
    rw [bufEofLoop.eq_def]
    by_cases hmx : mx0 < inbuf.length <;> simp [hmx]
  | cons ev rest ih =>
    intro inbuf outbuf mx buf c
    rw [bufEofLoop.eq_def]
    by_cases hmx : mx0 < inbuf.length
    · simp [hmx]
    · simp only [if_neg hmx]
      cases ev with
      | ok bs =>
        cases bs with
        | nil => intro hmem; exact List.mem_cons_self _ _
        | cons b bs2 =>
          intro hmem
          rcases List.mem_cons.mp hmem with h2 | h2
          · cases h2
          · exact List.mem_cons_of_mem _ (ih _ _ mx buf c h2)
      | block => simp
      | err => simp

/-- Every expectation arm leaves a read script that is a subset of the
script it started from. -/
theorem innerStep_reads_sub (P : Protocol M) (r : M × Expectation × Int)
    (st : St) (x : RdEv) :
    x ∈ (innerStep P r st).reads → x ∈ st.reads := by
  have hb : ∀ (num : Nat) (m : M) (reads : List RdEv)
      (inbuf outbuf : List Nat),
      x ∈ (bytesLoop P num m reads inbuf outbuf).reads → x ∈ reads := by
    intro num m reads
    induction reads with
    | nil =>
      intro inbuf outbuf
      rw [bytesLoop.eq_def]
      by_cases hn : num ≤ inbuf.length
      · simp only [if_pos hn]
        cases hpr : (P.bytes_read m ⟨inbuf, outbuf⟩ num).1 <;>
          simp [hpr]
      · simp [if_neg hn]
    | cons ev rest ih =>
      intro inbuf outbuf
      rw [bytesLoop.eq_def]
      by_cases hn : num ≤ inbuf.length
      · simp only [if_pos hn]
        cases hpr : (P.bytes_read m ⟨inbuf, outbuf⟩ num).1 <;>
          simp [hpr]
      · simp only [if_neg hn]
        cases ev with
        | ok bs =>
          cases bs with
          | nil => intro h; exact List.mem_cons_of_mem _ h
          | cons b bs2 =>
            intro h; exact List.mem_cons_of_mem _ (ih _ _ h)
        | block => intro h; exact List.mem_cons_of_mem _ h
        | err => intro h; exact List.mem_cons_of_mem _ h
  have hd : ∀ (off : Nat) (d : List Nat) (mx0 : Nat) (m : M)
      (reads : List RdEv) (inbuf outbuf : List Nat),
      x ∈ (delimLoop P off d mx0 m reads inbuf outbuf).reads →
      x ∈ reads := by
    intro off d mx0 m reads
    induction reads with
    | nil =>
      intro inbuf outbuf
      rw [delimLoop.eq_def]
      by_cases hoff : off < inbuf.length
      · simp only [hoff, if_true]
        cases hfs : find_substr (inbuf.drop off) d with
        | some num =>
          simp only [hfs, Option.isSome_some, Option.get_some, dif_pos]
          cases hpr : (P.bytes_read m ⟨inbuf, outbuf⟩ num).1 <;>
            simp [hpr]
        | none =>
          simp only [hfs, Option.isSome_none]
          by_cases hmx : mx0 < inbuf.length <;> simp [hmx]
      · simp only [hoff, if_false]
        by_cases hmx : mx0 < inbuf.length <;> simp [hmx]
    | cons ev rest ih =>
      intro inbuf outbuf
      rw [delimLoop.eq_def]
      by_cases hoff : off < inbuf.length
      · simp only [hoff, if_true]
        cases hfs : find_substr (inbuf.drop off) d with
        | some num =>
          simp only [hfs, Option.isSome_some, Option.get_some, dif_pos]
          cases hpr : (P.bytes_read m ⟨inbuf, outbuf⟩ num).1 <;>
            simp [hpr]
        | none =>
          simp only [hfs, Option.isSome_none]
          by_cases hmx : mx0 < inbuf.length
          · simp [hmx]
          · simp only [if_neg hmx, Bool.false_eq_true, dite_false]
            cases ev with
            | ok bs =>
              cases bs with
              | nil => intro h; exact List.mem_cons_of_mem _ h
              | cons b bs2 =>
                intro h; exact List.mem_cons_of_mem _ (ih _ _ h)
            | block => intro h; exact List.mem_cons_of_mem _ h
            | err => intro h; exact List.mem_cons_of_mem _ h
      · simp only [hoff, if_false]
        by_cases hmx : mx0 < inbuf.length
        · simp [hmx]
        · simp only [if_neg hmx, Option.isSome_none, Bool.false_eq_true,
            dite_false]
          cases ev with
          | ok bs =>
            cases bs with
            | nil => intro h; exact List.mem_cons_of_mem _ h
            | cons b bs2 =>
              intro h; exact List.mem_cons_of_mem _ (ih _ _ h)
          | block => intro h; exact List.mem_cons_of_mem _ h
          | err => intro h; exact List.mem_cons_of_mem _ h
  have he : ∀ (mn : Nat) (m : M) (reads : List RdEv)
      (inbuf outbuf : List Nat),
      x ∈ (eofLoop P mn m reads inbuf outbuf).reads → x ∈ reads := by
    intro mn m reads
    induction reads with
    | nil =>
      intro inbuf outbuf
      rw [eofLoop.eq_def]
      by_cases hn : mn < inbuf.length
      · simp only [if_pos hn]
        cases hpr : (P.bytes_read m ⟨inbuf, outbuf⟩ inbuf.length).1 <;>
          simp [hpr]
      · simp [if_neg hn]
    | cons ev rest ih =>
      intro inbuf outbuf
      rw [eofLoop.eq_def]
      by_cases hn : mn < inbuf.length
      · simp only [if_pos hn]
        cases hpr : (P.bytes_read m ⟨inbuf, outbuf⟩ inbuf.length).1 <;>
          simp [hpr]
      · simp only [if_neg hn]
        cases ev with
        | ok bs =>
          cases bs with
          | nil =>
            cases hpr : (P.bytes_read m ⟨inbuf, outbuf⟩ inbuf.length).1 <;>
              (intro h2; first
               | exact List.mem_cons_of_mem _ (by simpa using h2)
               | simp_all)
          | cons b bs2 =>
            intro h; exact List.mem_cons_of_mem _ (ih _ _ h)
        | block => intro h; exact List.mem_cons_of_mem _ h
        | err => intro h; exact List.mem_cons_of_mem _ h
  have hbe : ∀ (mx0 : Nat) (m : M) (reads : List RdEv)
      (inbuf outbuf : List Nat),
      x ∈ (bufEofLoop P mx0 m reads inbuf outbuf).reads → x ∈ reads := by
    intro mx0 m reads
    induction reads with
    | nil =>
      intro inbuf outbuf
      rw [bufEofLoop.eq_def]
      by_cases hmx : mx0 < inbuf.length <;> simp [hmx]
    | cons ev rest ih =>
      intro inbuf outbuf
      rw [bufEofLoop.eq_def]
      by_cases hmx : mx0 < inbuf.length
      · simp [hmx]
      · simp only [if_neg hmx]
        cases ev with
        | ok bs =>
          cases bs with
          | nil =>
            cases hpr : (P.bytes_read m ⟨inbuf, outbuf⟩ inbuf.length).1 <;>
              (intro h2; first
               | exact List.mem_cons_of_mem _ (by simpa using h2)
               | simp_all)
          | cons b bs2 =>
            intro h; exact List.mem_cons_of_mem _ (ih _ _ h)
        | block => intro h; exact List.mem_cons_of_mem _ h
        | err => intro h; exact List.mem_cons_of_mem _ h
  rw [innerStep.eq_def]
  cases r.2.1 with
  | Bytes n => exact hb n r.1 _ _ _
  | BufferEof mx => exact hbe mx r.1 _ _ _
  | Eof mn => exact he mn r.1 _ _ _
  | Delimiter off d mx => exact hd off d mx r.1 _ _ _
  | Flush n =>
    dsimp only
    rw [flushStep.eq_def]
    by_cases hn : st.outbuf.length ≤ n
    · simp only [if_pos hn]
      cases hpr : (P.bytes_flushed r.1 ⟨st.inbuf, st.outbuf⟩).1 <;>
        simp [hpr]
    · simp [hn]
  | Sleep => exact fun h => h

/-- If any expectation arm emits a BufferEof callback event, a half-close
was present in its read script. -/
theorem innerStep_bufEv (P : Protocol M) (r : M × Expectation × Int)
    (st : St) (mx : Nat) (buf : List Nat) (c : Nat) :
    Ev.bytesRead (.BufferEof mx) buf c ∈ (innerStep P r st).evs →
    RdEv.ok [] ∈ st.reads := by
  rw [innerStep.eq_def]
  cases r.2.1 with
  | Bytes n => exact fun h => absurd h (bytesLoop_noBufEv P n r.1 _ _ _ mx buf c)
  | BufferEof mx0 => exact bufEofLoop_bufEv P mx0 r.1 _ _ _ mx buf c
  | Eof mn => exact fun h => absurd h (eofLoop_noBufEv P mn r.1 _ _ _ mx buf c)
  | Delimiter off d mx0 =>
    exact fun h => absurd h (delimLoop_noBufEv P off d mx0 r.1 _ _ _ mx buf c)
  | Flush n =>
    exact fun h => absurd h (flushStep_noBufEv P n r.1 _ _ _ mx buf c)
  | Sleep => intro h; cases h

/-- If an outer-loop run emits a BufferEof callback event, a half-close
was present in the initial read script. -/
theorem outer_bufEv (P : Protocol M) :
    ∀ (fuel : Nat) (canWrite : Bool) (r : M × Expectation × Int)
      (s : StreamImpl) (sc : Scope) (mx : Nat) (buf : List Nat) (c : Nat),
    Ev.bytesRead (.BufferEof mx) buf c ∈ (outer P fuel canWrite r s sc).2.2 →
    RdEv.ok [] ∈ s.st.reads := by
  intro fuel
  induction fuel with
  | zero =>
    intro canWrite r s sc mx buf c h
    exact absurd h (List.not_mem_nil _)
  | succ fuel ih =>
    intro canWrite r s sc mx buf c
    simp only [outer]
    repeat' split
    all_goals try dsimp only
    all_goals intro hmem
    all_goals try simp only [List.mem_append] at hmem
    all_goals first
    | exact absurd hmem (List.not_mem_nil _)
    | exact absurd hmem (doWrite_noBuf _ _ mx buf c)
    | (have hx := innerStep_bufEv P r _ mx buf c hmem; exact hx)
    | (have hx := innerStep_reads_sub P r _ _ (ih _ _ _ _ mx buf c hmem);
       exact hx)
    | (rcases hmem with h | h <;>
       first
       | exact absurd h (List.not_mem_nil _)
       | exact absurd h (doWrite_noBuf _ _ mx buf c)
       | (have hx := innerStep_bufEv P r _ mx buf c h; exact hx)
       | (have hx := innerStep_reads_sub P r _ _ (ih _ _ _ _ mx buf c h);
          exact hx)
       | (rcases h with h | h <;>
          first
          | exact absurd h (List.not_mem_nil _)
          | exact absurd h (doWrite_noBuf _ _ mx buf c)
          | (have hx := innerStep_bufEv P r _ mx buf c h; exact hx)
          | (have hx := innerStep_reads_sub P r _ _
               (ih _ _ _ _ mx buf c h);
             exact hx)))

/-- If a full action run emits a BufferEof callback event, a half-close
was present in the initial read script; contrapositively, without an
observed half-close the BufferEof callback never fires. -/
theorem action_bufEv (P : Protocol M) (fuel : Nat) (req : Request M)
    (s : StreamImpl) (sc : Scope) (mx : Nat) (buf : List Nat) (c : Nat) :
    Ev.bytesRead (.BufferEof mx) buf c ∈ (action P fuel req s sc).2.2 →
    RdEv.ok [] ∈ s.st.reads := by
  rw [action_trace]
  cases req with
  | none => intro h; exact absurd h (List.not_mem_nil _)
  | some r =>
    simp only [_action]
    split
    · intro h; exact absurd h (doWrite_noBuf _ _ mx buf c)
    · intro hmem
      rcases List.mem_append.mp hmem with h | h
      · exact absurd h (doWrite_noBuf _ _ mx buf c)
      · have hx := outer_bufEv P fuel _ r _ sc mx buf c h
        exact hx

/-- C7: (1) whenever the bytes_read callback is invoked while the current
expectation is BufferEof(max), the reported count equals the buffer length
at that moment and that length is within max; (2) the callback fires only
when a read observes peer half-close: a run whose socket never reports a
zero-byte read never produces such a callback; (3) if the buffer already
exceeds max when the expectation is inspected, the run is destroyed
without invoking any user callback (its trace is empty) and the timer
token is cancelled. -/
theorem c7_buffereof_semantics :
    (∀ (P : Protocol M) (fuel : Nat) (req : Request M) (s : StreamImpl)
       (sc : Scope) (mx : Nat) (buf : List Nat) (c : Nat),
       Ev.bytesRead (.BufferEof mx) buf c ∈ (action P fuel req s sc).2.2 →
       c = buf.length ∧ buf.length ≤ mx) ∧
    (∀ (P : Protocol M) (fuel : Nat) (req : Request M) (s : StreamImpl)
       (sc : Scope), RdEv.ok [] ∉ s.st.reads →
       ∀ (mx : Nat) (buf : List Nat) (c : Nat),
       Ev.bytesRead (.BufferEof mx) buf c ∉ (action P fuel req s sc).2.2) ∧
    (∀ (P : Protocol M) (fuel : Nat) (m : M) (dl : Int) (mx : Nat)
       (s : StreamImpl) (sc : Scope),
       s.st.outbuf = [] → mx < s.st.inbuf.length →
       action P (fuel + 1) (some (m, .BufferEof mx, dl)) s sc
         = (.destroyed, sc.clear_timeout s.timeout, [])) := by
  refine ⟨?_, ?_, ?_⟩
  · intro P fuel req s sc mx buf c hmem
    exact action_evs_good P fuel req s sc _ hmem
  · intro P fuel req s sc hne mx buf c hmem
    exact hne (action_bufEv P fuel req s sc mx buf c hmem)
  · intro P fuel m dl mx s sc hob hmx
    simp only [action, _action, hob, doWrite_nil]
    simp only [outer, if_true, doWrite_nil, innerStep]
    rw [bufEofLoop.eq_def]
    simp [hmx]

/-- Witness for C7: part 1 at a run where half-close delivers a 3-byte
buffer under max 5; part 2 at a run whose socket only delivers data and
would-block; part 3 at a run whose 2-byte buffer exceeds max 1. -/
theorem c7_buffereof_semantics_witness :
    (3 = ([1, 2, 3] : List Nat).length ∧ ([1, 2, 3] : List Nat).length ≤ 5) ∧
    (Ev.bytesRead (.BufferEof 1) [9] 9 ∉
      (action stopProto 3 (some ((), .BufferEof 1, 0))
        ⟨⟨[.ok [4], .block], [], [], []⟩, 0, 0⟩ sc0).2.2) ∧
    (action stopProto 1 (some ((), .BufferEof 1, 0))
       ⟨⟨[], [], [1, 2], []⟩, 0, 7⟩ sc0
       = (.destroyed, sc0.clear_timeout 7, [])) := by
  refine ⟨?_, ?_, ?_⟩
  · exact (c7_buffereof_semantics.1 stopProto 2 (some ((), .BufferEof 5, 0))
      ⟨⟨[.ok []], [], [1, 2, 3], []⟩, 0, 0⟩ sc0 5 [1, 2, 3] 3 (by decide))
  · exact (c7_buffereof_semantics.2.1 stopProto 3 (some ((), .BufferEof 1, 0))
      ⟨⟨[.ok [4], .block], [], [], []⟩, 0, 0⟩ sc0 (by decide) 1 [9] 9)
  · exact (c7_buffereof_semantics.2.2 stopProto 0 () 0 1
      ⟨⟨[], [], [1, 2], []⟩, 0, 7⟩ sc0 rfl (by decide))

/-- C5: a timeout delivered strictly before the deadline is spurious: no
user callback fires (empty trace) and the Stream is handed back to the
event loop completely unchanged, with the scope untouched. -/
theorem c5_spurious_timeout (P : Protocol M) (fuel : Nat) (s : Stream M)
    (sc : Scope) (h : sc.now < s.deadline) :
    timeoutOp P fuel s sc = (.parked s, sc, []) := by
  simp only [timeoutOp]
  rw [if_neg (not_le.mpr h)]

/-- Witness for C5: a stream with deadline 10 woken at steady time 0. -/
theorem c5_spurious_timeout_witness :
    timeoutOp stopProto 1 ⟨(), .Sleep, 10, 0, ⟨[], [], [], []⟩⟩ sc0
      = (.parked ⟨(), .Sleep, 10, 0, ⟨[], [], [], []⟩⟩, sc0, []) :=
  c5_spurious_timeout stopProto 1 ⟨(), .Sleep, 10, 0, ⟨[], [], [], []⟩⟩
    sc0 (by decide)

/-- StreamImpl::_action itself never reports the destroyed outcome: only
the `action` wrapper converts Err(()) into destruction. -/
theorem _action_no_destroy (P : Protocol M) (fuel : Nat) (req : Request M)
    (s : StreamImpl) (sc : Scope) :
    (_action P fuel req s sc).1 ≠ .destroyed := by
  have houter : ∀ (fuel : Nat) (canWrite : Bool)
      (r : M × Expectation × Int) (s : StreamImpl) (sc : Scope),
      (outer P fuel canWrite r s sc).1 ≠ ActOut.destroyed := by
    intro fuel
    induction fuel with
    | zero => intro canWrite r s sc; simp [outer]
    | succ fuel ih =>
      intro canWrite r s sc
      simp only [outer]
      repeat' split
      all_goals try dsimp only
      all_goals first
      | exact ih _ _ _ _
      | exact fun h => ActOut.noConfusion h
  cases req with
  | none => exact fun h => ActOut.noConfusion h
  | some r =>
    simp only [_action]
    split
    · exact fun h => ActOut.noConfusion h
    · exact houter _ _ _ _ _

/-- C9: every Stream destroyed from inside the action loop — whether a
callback returned the absent Request or an I/O or expectation failure
occurred — has the timer token it held at entry passed to the host's
clear_timeout before control returns. -/
theorem c9_destroy_cancels_timer (P : Protocol M) (fuel : Nat)
    (req : Request M) (s : StreamImpl) (sc : Scope)
    (hdes : (action P fuel req s sc).1 = .destroyed) :
    s.timeout ∈ (action P fuel req s sc).2.1.cancelled := by
  cases hv : (_action P fuel req s sc).1 with
  | ioError =>
    simp only [action, hv, Scope.clear_timeout]
    exact List.mem_cons_self _ _
  | parked st => simp only [action, hv] at hdes; cases hdes
  | destroyed => exact absurd hv (_action_no_destroy P fuel req s sc)
  | panicked => simp only [action, hv] at hdes; cases hdes
  | noFuel => simp only [action, hv] at hdes; cases hdes

/-- Witness for C9: a run destroyed by the absent Request cancels timer
token 7. -/
theorem c9_destroy_cancels_timer_witness :
    (7 : Nat) ∈ (action stopProto 1 none
      ⟨⟨[], [], [], []⟩, 0, 7⟩ sc0).2.1.cancelled :=
  c9_destroy_cancels_timer stopProto 1 none ⟨⟨[], [], [], []⟩, 0, 7⟩ sc0
    (by decide)

/-- C8: when a Stream parks through compose with a deadline different
from the stored one, the old timer token is passed to clear_timeout and a
fresh timer is registered for the millisecond difference, so the
registered timer expires exactly at the deadline held in the parked
Stream's state. (The side conditions say the new deadline is not in the
past and the difference fits the u64 the source casts into.) -/
theorem c8_compose_timer (implem : StreamImpl) (m : M) (exp : Expectation)
    (dl : Int) (sc : Scope)
    (hne : dl ≠ implem.deadline) (hok : sc.timerFail = false)
    (h1 : sc.now ≤ dl) (h2 : dl < sc.now + 2 ^ 64) :
    ∃ (st : Stream M) (sc2 : Scope),
      compose implem m exp dl sc = some (st, sc2) ∧
      implem.timeout ∈ sc2.cancelled ∧
      st.deadline = dl ∧
      (st.timeout, dl) ∈ sc2.timers := by
  have hrel : sc.now + ((relMs dl sc.now : Nat) : Int) = dl := by
    unfold relMs
    rw [Int.emod_eq_of_lt (by omega) (by omega)]
    rw [Int.toNat_of_nonneg (by omega)]
    omega
  simp only [compose, if_pos hne, Scope.clear_timeout, Scope.timeout_ms,
    hok, Bool.false_eq_true, if_false]
  refine ⟨_, _, rfl, List.mem_cons_self _ _, rfl, ?_⟩
  rw [hrel]
  exact List.mem_cons_self _ _

/-- Witness for C8: a concrete compose from deadline 5 to deadline 100 at
steady time 0 with a cooperative host. -/
theorem c8_compose_timer_witness :
    ∃ (st : Stream Unit) (sc2 : Scope),
      compose ⟨⟨[], [], [], []⟩, 5, 3⟩ () .Sleep 100 sc0 = some (st, sc2) ∧
      (3 : Nat) ∈ sc2.cancelled ∧
      st.deadline = 100 ∧
      (st.timeout, (100 : Int)) ∈ sc2.timers :=
  c8_compose_timer ⟨⟨[], [], [], []⟩, 5, 3⟩ () .Sleep 100 sc0
    (by decide) rfl (by decide) (by decide)

/-- C10: (1) every action-loop run begins by draining the output buffer:
its trace starts with exactly the events of the entry write, whatever the
expectation variant is; (2) in particular a request carrying Sleep and a
non-empty output buffer still has its output written (until empty or
would-block) before the Stream parks: the run parks with the output
buffer as the entry write left it, the socket write script advanced by
the entry write, everything else unchanged, and the trace consisting of
the write events alone. -/
theorem c10_write_before_inspect :
    (∀ (P : Protocol M) (fuel : Nat) (r : M × Expectation × Int)
       (s : StreamImpl) (sc : Scope),
       ∃ rest, (_action P fuel (some r) s sc).2.2
         = (doWrite s.st.writes s.st.outbuf).evs ++ rest) ∧
    (∀ (P : Protocol M) (fuel : Nat) (m : M) (dl : Int) (s : StreamImpl)
       (sc : Scope) (cw : Bool),
       (doWrite s.st.writes s.st.outbuf).res = .ok cw → dl = s.deadline →
       _action P (fuel + 1) (some (m, .Sleep, dl)) s sc
         = (.parked ⟨m, .Sleep, dl, s.timeout,
             ⟨s.st.reads, (doWrite s.st.writes s.st.outbuf).writes,
              s.st.inbuf, (doWrite s.st.writes s.st.outbuf).outbuf⟩⟩,
            sc, (doWrite s.st.writes s.st.outbuf).evs)) := by
  constructor
  · intro P fuel r s sc
    simp only [_action]
    split
    · exact ⟨[], by simp⟩
    · exact ⟨_, rfl⟩
  · intro P fuel m dl s sc cw hw hdl
    subst hdl
    simp only [_action]
    split
    · simp_all
    · rename_i cw2 heq
      rw [hw] at heq
      injection heq with hcw
      subst hcw
      cases cw with
      | true =>
        have hemp := doWrite_true_empty s.st.writes s.st.outbuf hw
        simp only [outer, if_true, hemp, doWrite_nil, innerStep, compose]
        simp
      | false =>
        simp only [outer, Bool.false_eq_true, if_false, innerStep, compose]
        simp

/-- Witness for C10: part 1 on a Bytes run whose entry write emits a
wrote-2 event; part 2 on a Sleep run that drains two buffered bytes and
parks with the trace being exactly that write event. -/
theorem c10_write_before_inspect_witness :
    (∃ rest, (_action stopProto 1 (some ((), .Bytes 0, 0))
        ⟨⟨[], [.ok 2], [], [1, 2]⟩, 0, 3⟩ sc0).2.2
      = (doWrite [.ok 2] [1, 2]).evs ++ rest) ∧
    (_action stopProto 1 (some ((), .Sleep, 0))
        ⟨⟨[], [.ok 2], [], [1, 2]⟩, 0, 3⟩ sc0
      = (.parked ⟨(), .Sleep, 0, 3,
          ⟨[], (doWrite [.ok 2] [1, 2]).writes, [],
            (doWrite [.ok 2] [1, 2]).outbuf⟩⟩,
         sc0, (doWrite [.ok 2] [1, 2]).evs)) := by
  constructor
  · exact c10_write_before_inspect.1 stopProto 1 ((), .Bytes 0, 0)
      ⟨⟨[], [.ok 2], [], [1, 2]⟩, 0, 3⟩ sc0
  · exact c10_write_before_inspect.2 stopProto 0 () 0
      ⟨⟨[], [.ok 2], [], [1, 2]⟩, 0, 3⟩ sc0 true rfl rfl

/-- C1 (code behaviour at the failing input): with expectation
Delimiter(0, CRLF, 8) and ten bytes buffered containing no CRLF, the run
is destroyed with an empty trace: the delimiter_not_found hook declared
by the Protocol trait is never invoked (no event at all is emitted, in
particular no delimNotFound event), its return value is never consulted,
and the entry timer token is cancelled. The spec instead says the hook is
invoked exactly once and its Request decides what happens next. -/
theorem c1_delimiter_not_found_never_called :
    action stopProto 1
      (some ((), .Delimiter 0 [13, 10] 8, 0))
      ⟨⟨[], [], List.replicate 10 65, []⟩, 0, 7⟩ sc0
      = (.destroyed, sc0.clear_timeout 7, []) ∧
    Ev.delimNotFound ∉
      (action stopProto 1 (some ((), .Delimiter 0 [13, 10] 8, 0))
        ⟨⟨[], [], List.replicate 10 65, []⟩, 0, 7⟩ sc0).2.2 := by
  exact ⟨by decide, by decide⟩

/-- C2 (code behaviour at the failing input): with expectation Bytes(5),
two bytes buffered and the peer half-closing, IoOp::is_done maps Eof to
Ok(false), so the run parks the Stream unchanged (same expectation,
deadline and timer token) instead of treating the half-close as a read
error and destroying it as the spec says. -/
theorem c2_eof_during_bytes_parks :
    action stopProto 1 (some ((), .Bytes 5, 0))
      ⟨⟨[.ok []], [], [1, 2], []⟩, 0, 7⟩ sc0
      = (.parked ⟨(), .Bytes 5, 0, 7, ⟨[], [], [1, 2], []⟩⟩, sc0,
          [.readOp .Eof]) ∧
    (action stopProto 1 (some ((), .Bytes 5, 0))
      ⟨⟨[.ok []], [], [1, 2], []⟩, 0, 7⟩ sc0).1 ≠ ActOut.destroyed := by
  exact ⟨by decide, by decide⟩

/-- C3 (code behaviour at the failing input): when the host rejects the
initial timer registration, Stream::new panics through
`.expect("Can't insert timer")` instead of returning the declared
TimerError value; the ProtocolStop half of the claim does hold: an absent
create Request yields the ProtocolStop error. -/
theorem c3_new_timer_failure_panics :
    (Stream.new (some (((), .Sleep, 50) : Unit × Expectation × Int)) [] []
        { sc0 with timerFail := true }).1 = .panicTimer ∧
    (Stream.new (some (((), .Sleep, 50) : Unit × Expectation × Int)) [] []
        { sc0 with timerFail := true }).1 ≠ .errRegister ∧
    (Stream.new (none : Request Unit) [] [] sc0).1 = .errProtocolStop := by
  exact ⟨rfl, by decide, rfl⟩
